import Mathlib

/-!
Verification development for a file-aware keyword-retrieval chatbot
(`streamlit_app.py`).  The retrieval pipeline — text extraction, chunking,
keyword-overlap scoring/ranking and answer highlighting — is shallowly
embedded over `List Char` (Python `str`) and `Fin 256` (Python `bytes`
elements).  Regex scans (`\w+` tokenisation, `\n{1,}` paragraph splitting,
`(?<=[.!?])\s+` sentence splitting, `re.sub(r"\w+", ...)` highlighting) are
embedded as structurally recursive character scanners so that every
definition evaluates by kernel reduction.
-/

namespace ChatbotApp

/-- Python bytes element. -/
abbrev Byte := Fin 256

/-- ASCII reading of the regex word class `\w`: `[0-9A-Za-z_]`. -/
def isWordChar (c : Char) : Bool :=
  (48 ≤ c.toNat && c.toNat ≤ 57) || (65 ≤ c.toNat && c.toNat ≤ 90) ||
    (97 ≤ c.toNat && c.toNat ≤ 122) || c.toNat == 95

/-- ASCII whitespace as recognised by Python `str.strip` / regex `\s`. -/
def isSpaceChar (c : Char) : Bool :=
  c.toNat == 32 || c.toNat == 9 || c.toNat == 10 || c.toNat == 13 ||
    c.toNat == 11 || c.toNat == 12

/-- Python `str.lower()` (ASCII range, as `Char.toLower`). -/
def lowerStr (s : List Char) : List Char :=
  s.map Char.toLower

/-- Python `str.strip()`: drop leading and trailing whitespace. -/
def stripChars (s : List Char) : List Char :=
  ((s.dropWhile isSpaceChar).reverse.dropWhile isSpaceChar).reverse

/-- Scanner for `re.findall(r"\w+", s)`: `cur` holds the reversed current
word run. -/
def tokAux (cur : List Char) : List Char → List (List Char)
  | [] => if cur = [] then [] else [cur.reverse]
  | c :: rest =>
    if isWordChar c then tokAux (c :: cur) rest
    else if cur = [] then tokAux [] rest
    else cur.reverse :: tokAux [] rest

/-- `re.findall(r"\w+", s)`: the maximal word-character runs of `s`, in
order, repeats kept. -/
def tokenize (s : List Char) : List (List Char) :=
  tokAux [] s

/-- Scanner for `re.split(r"\n{1,}", text)`.  `skip = true` while inside a
newline run that has already ended the previous piece. -/
def splitParasAux (skip : Bool) (cur : List Char) : List Char → List (List Char)
  | [] => [cur.reverse]
  | c :: rest =>
    if c = '\n' then
      if skip then splitParasAux true cur rest
      else cur.reverse :: splitParasAux true [] rest
    else splitParasAux false (c :: cur) rest

/-- `re.split(r"\n{1,}", text)`: split on maximal runs of newlines. -/
def splitParagraphs (text : List Char) : List (List Char) :=
  splitParasAux false [] text

/-- Is the first character (if any) whitespace? -/
def headIsSpace : List Char → Bool
  | [] => false
  | c :: _ => isSpaceChar c

/-- Sentence-boundary characters `.`, `!`, `?`. -/
def isSentEnd (c : Char) : Bool :=
  c.toNat == 46 || c.toNat == 33 || c.toNat == 63

/-- Scanner for `re.split(r"(?<=[.!?])\s+", p)`.  `skip = true` while
consuming the whitespace run that follows a sentence boundary. -/
def splitSentAux (skip : Bool) (cur : List Char) : List Char → List (List Char)
  | [] => [cur.reverse]
  | c :: rest =>
    if skip && isSpaceChar c then splitSentAux true cur rest
    else if isSentEnd c && headIsSpace rest then
      (c :: cur).reverse :: splitSentAux true [] rest
    else splitSentAux false (c :: cur) rest

/-- `re.split(r"(?<=[.!?])\s+", p)`: split into sentence-like pieces at
whitespace runs preceded by `.`/`!`/`?`. -/
def splitSentences (p : List Char) : List (List Char) :=
  splitSentAux false [] p

/-- One step of the sentence-accumulation loop of `chunk_text` (state =
`(chunks, buf)`, next sentence `s`). -/
def addSentence (mx : Nat) (st : List (List Char) × List Char) (s : List Char) :
    List (List Char) × List Char :=
  if st.2.length + s.length + 1 > mx then
    ((if st.2 = [] then st.1 else st.1 ++ [stripChars st.2]), s)
  else
    (st.1, if st.2 = [] then s else st.2 ++ ' ' :: s)

/-- One step of the paragraph loop of `chunk_text` (state =
`(chunks, current)`, next raw paragraph `p0`). -/
def processPara (mx : Nat) (st : List (List Char) × List Char) (p0 : List Char) :
    List (List Char) × List Char :=
  let p := stripChars p0
  if p = [] then st
  else if st.2.length + p.length + 1 > mx then
    let chunks1 := if st.2 = [] then st.1 else st.1 ++ [stripChars st.2]
    if p.length > mx then
      let r := (splitSentences p).foldl (addSentence mx) (chunks1, [])
      ((if r.2 = [] then r.1 else r.1 ++ [stripChars r.2]), [])
    else (chunks1, p)
  else (st.1, if st.2 = [] then p else st.2 ++ '\n' :: p)

/-- `chunk_text(text, max_chars)`: split text into chunks respecting
paragraphs and sentence boundaries where possible. -/
def chunk_text (text : List Char) (mx : Nat) : List (List Char) :=
  if text = [] then []
  else
    let r := (splitParagraphs text).foldl (processPara mx) ([], [])
    if r.2 = [] then r.1 else r.1 ++ [stripChars r.2]

/-- An indexed document: `{name, text, chunks}` entry of
`st.session_state.uploaded_files`. -/
structure Doc where
  name : List Char
  text : List Char
  chunks : List (List Char)
deriving DecidableEq

/-- A retrieval result `{file, chunk, score, index}` of `simple_retrieve`. -/
structure MatchR where
  file : List Char
  chunk : List Char
  score : Nat
  index : Nat
deriving DecidableEq

/-- `sum(words.count(t) for t in tokens)`: keyword-overlap score of a chunk
(whose token list is `words`) against the query token list `tokens`,
repeats kept. -/
def chunkScore (tokens words : List (List Char)) : Nat :=
  (tokens.map (fun t => words.count t)).sum

/-- The inner loop of `simple_retrieve` over one document: enumerate its
chunks, skip token-free chunks, keep positive scores. -/
def docCandidates (tokens : List (List Char)) (uf : Doc) : List MatchR :=
  uf.chunks.enum.filterMap (fun ic =>
    let words := tokenize (lowerStr ic.2)
    if words = [] then none
    else
      let score := chunkScore tokens words
      if score > 0 then some ⟨uf.name, ic.2, score, ic.1⟩ else none)

/-- The unsorted result list of `simple_retrieve`, in document-by-document,
chunk-by-chunk encounter order. -/
def retrievalCandidates (query : List Char) (corpus : List Doc) : List MatchR :=
  (corpus.map (docCandidates (tokenize (lowerStr query)))).flatten

/-- Insert into a descending-by-score list: after all strictly greater
scores and before the first equal-or-smaller score — the unique stable
position for an element that precedes the list's elements in encounter
order. -/
def insertDesc (a : MatchR) : List MatchR → List MatchR
  | [] => [a]
  | b :: l => if b.score > a.score then b :: insertDesc a l else a :: b :: l

/-- Stable descending-by-score sort: the embedding of
`results.sort(key=lambda r: r["score"], reverse=True)` (Python's sort is
stable and `reverse=True` preserves the order of equal keys). -/
def sortDesc : List MatchR → List MatchR
  | [] => []
  | a :: l => insertDesc a (sortDesc l)

/-- `simple_retrieve(query, top_k)` over an explicit corpus: keyword-overlap
retrieval returning the top-K positive-score chunks. -/
def simple_retrieve (corpus : List Doc) (query : List Char) (top_k : Nat) :
    List MatchR :=
  let tokens := tokenize (lowerStr query)
  if tokens = [] then []
  else (sortDesc ((corpus.map (docCandidates tokens)).flatten)).take top_k

/-- An optional extraction backend (PyPDF2 / python-docx): absent, or a
function that on given bytes either returns text or raises
(`Except.error`). -/
abbrev ExtractLib := Option (List Byte → Except Unit (List Char))

/-- `extract_text_from_pdf`: empty text when the backend is absent or
raises. -/
def extract_text_from_pdf (lib : ExtractLib) (data : List Byte) : List Char :=
  match lib with
  | none => []
  | some f =>
    match f data with
    | .ok t => t
    | .error _ => []

/-- `extract_text_from_docx`: empty text when the backend is absent or
raises. -/
def extract_text_from_docx (lib : ExtractLib) (data : List Byte) : List Char :=
  match lib with
  | none => []
  | some f =>
    match f data with
    | .ok t => t
    | .error _ => []

/-- Is `b` a UTF-8 continuation byte `0x80..0xBF`? -/
def isContByte (b : Byte) : Bool :=
  128 ≤ b.val && b.val < 192

/-- Strict UTF-8 decoding as performed by `bytes.decode("utf-8")`:
rejects lone/misplaced continuation bytes, overlong forms, surrogates and
code points above `0x10FFFF` (`Except.error` models `UnicodeDecodeError`). -/
def utf8DecodeE : List Byte → Except Unit (List Char)
  | [] => .ok []
  | b :: rest =>
    if b.val < 128 then
      match utf8DecodeE rest with
      | .ok cs => .ok (Char.ofNat b.val :: cs)
      | .error e => .error e
    else if b.val < 194 then .error ()
    else if b.val < 224 then
      match rest with
      | b1 :: rest1 =>
        if isContByte b1 then
          match utf8DecodeE rest1 with
          | .ok cs => .ok (Char.ofNat ((b.val - 192) * 64 + (b1.val - 128)) :: cs)
          | .error e => .error e
        else .error ()
      | [] => .error ()
    else if b.val < 240 then
      match rest with
      | b1 :: b2 :: rest2 =>
        if (if b.val = 224 then 160 ≤ b1.val && b1.val < 192
            else if b.val = 237 then 128 ≤ b1.val && b1.val < 160
            else isContByte b1) && isContByte b2 then
          match utf8DecodeE rest2 with
          | .ok cs =>
            .ok (Char.ofNat ((b.val - 224) * 4096 + (b1.val - 128) * 64 +
              (b2.val - 128)) :: cs)
          | .error e => .error e
        else .error ()
      | _ => .error ()
    else if b.val < 245 then
      match rest with
      | b1 :: b2 :: b3 :: rest3 =>
        if (if b.val = 240 then 144 ≤ b1.val && b1.val < 192
            else if b.val = 244 then 128 ≤ b1.val && b1.val < 144
            else isContByte b1) && isContByte b2 && isContByte b3 then
          match utf8DecodeE rest3 with
          | .ok cs =>
            .ok (Char.ofNat ((b.val - 240) * 262144 + (b1.val - 128) * 4096 +
              (b2.val - 128) * 64 + (b3.val - 128)) :: cs)
          | .error e => .error e
        else .error ()
      | _ => .error ()
    else .error ()

/-- Latin-1 decoding of one byte: code point = byte value, guarded by the
general scalar-value validity check (which a byte always passes). -/
def latin1Char (b : Byte) : Except Unit Char :=
  if b.val < 1114112 && !(55296 ≤ b.val && b.val < 57344) then
    .ok (Char.ofNat b.val)
  else .error ()

/-- `bytes.decode("latin-1")`: byte-wise single-byte decoding. -/
def latin1DecodeE : List Byte → Except Unit (List Char)
  | [] => .ok []
  | b :: rest =>
    match latin1Char b, latin1DecodeE rest with
    | .ok c, .ok cs => .ok (c :: cs)
    | _, _ => .error ()

/-- Lower-case hexadecimal digit for `0..15`. -/
def hexDigitChar (n : Nat) : Char :=
  if n < 10 then Char.ofNat (48 + n) else Char.ofNat (87 + n)

/-- Quote character chosen by `bytes.__repr__`: double quote when the data
contains a single quote but no double quote, else single quote. -/
def reprQuote (data : List Byte) : Char :=
  if data.any (fun b => b.val == 39) && !(data.any (fun b => b.val == 34)) then
    Char.ofNat 34
  else Char.ofNat 39

/-- Rendering of one byte inside `bytes.__repr__` with quote `q`. -/
def escapeByte (q : Char) (b : Byte) : List Char :=
  if b.val = 92 then [Char.ofNat 92, Char.ofNat 92]
  else if b.val = q.toNat then [Char.ofNat 92, q]
  else if b.val = 9 then [Char.ofNat 92, 't']
  else if b.val = 10 then [Char.ofNat 92, 'n']
  else if b.val = 13 then [Char.ofNat 92, 'r']
  else if 32 ≤ b.val && b.val < 127 then [Char.ofNat b.val]
  else [Char.ofNat 92, 'x', hexDigitChar (b.val / 16), hexDigitChar (b.val % 16)]

/-- `str(data)` for `data : bytes`: the `b'...'` representation. -/
def bytesRepr (data : List Byte) : List Char :=
  let q := reprQuote data
  'b' :: q :: ((data.map (escapeByte q)).flatten ++ [q])

/-- `str(data)` never raises for bytes. -/
def bytesReprE (data : List Byte) : Except Unit (List Char) :=
  .ok (bytesRepr data)

/-- `".pdf"` as a character list. -/
def pdfSuffix : List Char :=
  (".pdf").toList

/-- `".docx"` as a character list. -/
def docxSuffix : List Char :=
  (".docx").toList

/-- The `text` local of `parse_uploaded_file`: dispatch on the lower-cased
file-name suffix, and on the plain-text path try UTF-8, then Latin-1, with
a caught failure leaving the empty string. -/
def extractedText (pdfLib docxLib : ExtractLib) (name : List Char)
    (data : List Byte) : List Char :=
  let nameL := lowerStr name
  if pdfSuffix.isSuffixOf nameL then extract_text_from_pdf pdfLib data
  else if docxSuffix.isSuffixOf nameL then extract_text_from_docx docxLib data
  else
    match utf8DecodeE data with
    | .ok t => t
    | .error _ =>
      match latin1DecodeE data with
      | .ok t => t
      | .error _ => []

/-- `parse_uploaded_file` with the exception flow made explicit: an
`Except.error` result would model an exception escaping to the caller;
every internal decode failure is caught and handled. -/
def parseUploadedFileE (pdfLib docxLib : ExtractLib) (name : List Char)
    (data : List Byte) : Except Unit (List Char) :=
  let text := extractedText pdfLib docxLib name data
  if text = [] then
    match bytesReprE data with
    | .ok t => .ok t
    | .error _ => .ok []
  else .ok text

/-- `parse_uploaded_file(uploaded_file)`: extract text from an uploaded
file (txt / pdf / docx). -/
def parse_uploaded_file (pdfLib docxLib : ExtractLib) (name : List Char)
    (data : List Byte) : List Char :=
  match parseUploadedFileE pdfLib docxLib name data with
  | .ok t => t
  | .error _ => []

/-- An uploaded artifact as received from the uploader widget. -/
structure UploadedFile where
  name : List Char
  data : List Byte
deriving DecidableEq

/-- The `{name, text, chunks}` record built for one file by
`index_uploaded_files` (chunking with the default `max_chars = 1200`). -/
def indexedDoc (pdfLib docxLib : ExtractLib) (f : UploadedFile) : Doc :=
  let parsed := parse_uploaded_file pdfLib docxLib f.name f.data
  ⟨f.name, parsed, chunk_text parsed 1200⟩

/-- `index_uploaded_files(uploaded_files)`: append a record per file to the
corpus. -/
def index_uploaded_files (pdfLib docxLib : ExtractLib) (corpus : List Doc)
    (files : List UploadedFile) : List Doc :=
  files.foldl (fun acc f => acc ++ [indexedDoc pdfLib docxLib f]) corpus

/-- The `file_uploader` handler: on a non-empty upload batch, reset the
corpus to `[]` and index the batch (`if uploaded:` is false for an empty
batch). -/
def uploadHandler (pdfLib docxLib : ExtractLib) (corpus : List Doc)
    (batch : List UploadedFile) : List Doc :=
  if batch = [] then corpus
  else index_uploaded_files pdfLib docxLib [] batch

/-- `set(re.findall(r"\w+", query.lower()))` — membership in this list is
the highlight criterion (a list models the set; only membership is used). -/
def qtokens (query : List Char) : List (List Char) :=
  tokenize (lowerStr query)

/-- Scanner for `re.sub(r"\w+", repl, text)`: apply `f` to every maximal
word-character run, keep everything else; `cur` holds the reversed current
run. -/
def subWAux (f : List Char → List Char) (cur : List Char) : List Char → List Char
  | [] => if cur = [] then [] else f cur.reverse
  | c :: rest =>
    if isWordChar c then subWAux f (c :: cur) rest
    else if cur = [] then c :: subWAux f [] rest
    else f cur.reverse ++ c :: subWAux f [] rest

/-- The replacement applied by `repl` to a matched word run `w`: wrap `w`
in backticks iff its lower-cased form is a query token. -/
def replTok (query : List Char) (w : List Char) : List Char :=
  if lowerStr w ∈ qtokens query then
    Char.ofNat 96 :: (w ++ [Char.ofNat 96])
  else w

/-- The `highlight` closure of `build_answer_from_matches`:
`re.sub(r"\w+", repl, text)` with `repl` wrapping matched query tokens in
backticks. -/
def highlight (query text : List Char) : List Char :=
  subWAux (replTok query) [] text

/-- Spec-side scoring formula: the sum, over the query's token list with
repeats kept, of the occurrences of that token among the chunk's tokens. -/
def queryChunkScore (query chunk : List Char) : Nat :=
  chunkScore (tokenize (lowerStr query)) (tokenize (lowerStr chunk))

/-- Spec-side count of the corpus chunks scoring strictly positively
against a query. -/
def countPositiveChunks (query : List Char) (corpus : List Doc) : Nat :=
  (corpus.map
    (fun uf => (uf.chunks.filter (fun ch => 0 < queryChunkScore query ch)).length)).sum

/-- The non-whitespace characters of a string, in order. -/
def nonws (s : List Char) : List Char :=
  s.filter (fun c => !isSpaceChar c)

/-- The non-whitespace characters of a concatenation of strings. -/
def nonwsAll (l : List (List Char)) : List Char :=
  (l.map nonws).flatten

/-- `s` has no leading whitespace. -/
def noLeadWs (s : List Char) : Prop :=
  ∀ x ∈ s.head?, isSpaceChar x = false

/-- `s` has no trailing whitespace. -/
def noTrailWs (s : List Char) : Prop :=
  ∀ x ∈ s.getLast?, isSpaceChar x = false

/-- `s` is one of the sentence-like units the chunker can produce from
`text`: a piece of the sentence split of some stripped paragraph of
`text`. -/
def sentenceUnitOf (text s : List Char) : Prop :=
  ∃ p ∈ splitParagraphs text, s ∈ splitSentences (stripChars p)

/-! ### Whitespace, strip and split lemmas -/

theorem nonws_nil : nonws [] = [] := rfl

theorem nonws_append (x y : List Char) : nonws (x ++ y) = nonws x ++ nonws y :=
  List.filter_append x y

theorem nonws_reverse (s : List Char) : nonws s.reverse = (nonws s).reverse :=
  List.filter_reverse _ s

theorem nonws_cons (c : Char) (s : List Char) :
    nonws (c :: s) = if isSpaceChar c then nonws s else c :: nonws s := by
  by_cases h : isSpaceChar c <;> simp [nonws, List.filter_cons, h]

theorem nonws_dropWhile_space (s : List Char) :
    nonws (s.dropWhile isSpaceChar) = nonws s := by
  induction s with
  | nil => rfl
  | cons c t ih =>
    by_cases h : isSpaceChar c
    · rw [List.dropWhile_cons_of_pos h, ih, nonws_cons, if_pos h]
    · rw [List.dropWhile_cons_of_neg h]

theorem nonws_stripChars (s : List Char) : nonws (stripChars s) = nonws s := by
  unfold stripChars
  rw [nonws_reverse, nonws_dropWhile_space, nonws_reverse, List.reverse_reverse,
    nonws_dropWhile_space]

theorem nonwsAll_append (l m : List (List Char)) :
    nonwsAll (l ++ m) = nonwsAll l ++ nonwsAll m := by
  unfold nonwsAll
  rw [List.map_append, List.flatten_append]

theorem nonwsAll_cons (x : List Char) (l : List (List Char)) :
    nonwsAll (x :: l) = nonws x ++ nonwsAll l := rfl

theorem splitParasAux_nonws (l : List Char) :
    ∀ (skip : Bool) (cur : List Char),
      nonwsAll (splitParasAux skip cur l) = nonws cur.reverse ++ nonws l := by
  induction l with
  | nil =>
    intro skip cur
    simp [splitParasAux, nonwsAll, nonws]
  | cons c rest ih =>
    intro skip cur
    by_cases hnl : c = '\n'
    · have hws : isSpaceChar c = true := by subst hnl; decide
      cases skip with
      | true =>
        rw [splitParasAux, if_pos hnl, if_pos (by decide : (true = true)),
          ih true cur, nonws_cons, if_pos hws]
      | false =>
        rw [splitParasAux, if_pos hnl, if_neg (by decide : ¬(false = true)),
          nonwsAll_cons, ih true [], nonws_cons, if_pos hws]
        simp [nonws]
    · rw [splitParasAux, if_neg hnl, ih false (c :: cur), nonws_cons]
      by_cases hws : isSpaceChar c
      · rw [if_pos hws]
        simp [List.reverse_cons, nonws_append, nonws_cons, hws, nonws_nil]
      · rw [if_neg hws]
        simp [List.reverse_cons, nonws_append, nonws_cons, hws, nonws_nil]

theorem splitParagraphs_nonws (text : List Char) :
    nonwsAll (splitParagraphs text) = nonws text := by
  rw [splitParagraphs, splitParasAux_nonws]
  rfl

theorem splitSentAux_nonws (l : List Char) :
    ∀ (skip : Bool) (cur : List Char),
      nonwsAll (splitSentAux skip cur l) = nonws cur.reverse ++ nonws l := by
  induction l with
  | nil =>
    intro skip cur
    simp [splitSentAux, nonwsAll, nonws]
  | cons c rest ih =>
    intro skip cur
    by_cases hsk : (skip && isSpaceChar c) = true
    · rw [splitSentAux, if_pos hsk]
      have hws : isSpaceChar c = true := (Bool.and_eq_true_iff.mp hsk).2
      rw [ih true cur, nonws_cons, if_pos hws]
    · rw [splitSentAux, if_neg hsk]
      by_cases hse : (isSentEnd c && headIsSpace rest) = true
      · rw [if_pos hse]
        have hcw : isSpaceChar c = false := by
          have h1 : isSentEnd c = true := (Bool.and_eq_true_iff.mp hse).1
          revert h1
          unfold isSentEnd isSpaceChar
          rcases Nat.decEq c.toNat 46 with h46 | h46 <;>
            rcases Nat.decEq c.toNat 33 with h33 | h33 <;>
              rcases Nat.decEq c.toNat 63 with h63 | h63 <;>
                simp_all
        rw [nonwsAll_cons, ih true []]
        simp only [List.reverse_cons, List.reverse_nil, List.nil_append]
        rw [nonws_append, nonws_cons, if_neg (by simp [hcw]), nonws_cons,
          if_neg (by simp [hcw])]
        simp [nonws]
      · rw [if_neg hse, ih false (c :: cur), nonws_cons]
        by_cases hws : isSpaceChar c
        · rw [if_pos hws]
          simp [List.reverse_cons, nonws_append, nonws_cons, hws, nonws_nil]
        · rw [if_neg hws]
          simp [List.reverse_cons, nonws_append, nonws_cons, hws, nonws_nil]

theorem splitSentences_nonws (p : List Char) :
    nonwsAll (splitSentences p) = nonws p := by
  rw [splitSentences, splitSentAux_nonws]
  rfl

/-! ### Losslessness of the chunker (claim C3 machinery) -/

theorem addSentence_nonws (mx : Nat) (st : List (List Char) × List Char)
    (s : List Char) :
    nonwsAll (addSentence mx st s).1 ++ nonws (addSentence mx st s).2 =
      nonwsAll st.1 ++ nonws st.2 ++ nonws s := by
  unfold addSentence
  by_cases hof : st.2.length + s.length + 1 > mx
  · rw [if_pos hof]
    by_cases hb : st.2 = []
    · simp [hb, nonws_nil]
    · simp only [if_neg hb]
      rw [nonwsAll_append, nonwsAll_cons]
      simp [nonws_stripChars, nonwsAll, List.append_assoc]
  · rw [if_neg hof]
    by_cases hb : st.2 = []
    · simp [hb, nonws_nil]
    · simp only [if_neg hb]
      rw [nonws_append, nonws_cons, if_pos (by decide : isSpaceChar ' ' = true)]
      simp [List.append_assoc]

theorem foldl_addSentence_nonws (mx : Nat) (ss : List (List Char)) :
    ∀ st : List (List Char) × List Char,
      nonwsAll (ss.foldl (addSentence mx) st).1 ++
          nonws (ss.foldl (addSentence mx) st).2 =
        nonwsAll st.1 ++ nonws st.2 ++ nonwsAll ss := by
  induction ss with
  | nil =>
    intro st
    simp [nonwsAll]
  | cons s rest ih =>
    intro st
    rw [List.foldl_cons, ih (addSentence mx st s), addSentence_nonws,
      nonwsAll_cons]
    simp [List.append_assoc]

theorem flushChunks_nonws (chunks : List (List Char)) (buf : List Char) :
    nonwsAll (if buf = [] then chunks else chunks ++ [stripChars buf]) =
      nonwsAll chunks ++ nonws buf := by
  by_cases hb : buf = []
  · simp [hb, nonws_nil]
  · rw [if_neg hb, nonwsAll_append, nonwsAll_cons]
    simp [nonws_stripChars, nonwsAll]

theorem processPara_nonws (mx : Nat) (st : List (List Char) × List Char)
    (p0 : List Char) :
    nonwsAll (processPara mx st p0).1 ++ nonws (processPara mx st p0).2 =
      nonwsAll st.1 ++ nonws st.2 ++ nonws p0 := by
  simp only [processPara]
  by_cases h1 : stripChars p0 = []
  · rw [if_pos h1]
    have h0 : nonws p0 = [] := by rw [← nonws_stripChars, h1, nonws_nil]
    simp [h0]
  · rw [if_neg h1]
    by_cases h2 : st.2.length + (stripChars p0).length + 1 > mx
    · rw [if_pos h2]
      by_cases h3 : (stripChars p0).length > mx
      · rw [if_pos h3]
        simp only []
        rw [flushChunks_nonws, foldl_addSentence_nonws, flushChunks_nonws,
          splitSentences_nonws, nonws_stripChars, nonws_nil]
        simp [List.append_assoc]
      · rw [if_neg h3]
        simp only []
        rw [flushChunks_nonws, nonws_stripChars]
    · rw [if_neg h2]
      simp only []
      by_cases hb : st.2 = []
      · rw [if_pos hb, hb]
        simp [nonws_nil, nonws_stripChars]
      · rw [if_neg hb, nonws_append, nonws_cons,
          if_pos (by decide : isSpaceChar '\n' = true), nonws_stripChars]
        simp [List.append_assoc]

theorem foldl_processPara_nonws (mx : Nat) (ps : List (List Char)) :
    ∀ st : List (List Char) × List Char,
      nonwsAll (ps.foldl (processPara mx) st).1 ++
          nonws (ps.foldl (processPara mx) st).2 =
        nonwsAll st.1 ++ nonws st.2 ++ nonwsAll ps := by
  induction ps with
  | nil =>
    intro st
    simp [nonwsAll]
  | cons p rest ih =>
    intro st
    rw [List.foldl_cons, ih (processPara mx st p), processPara_nonws,
      nonwsAll_cons]
    simp [List.append_assoc]

theorem chunk_text_nonws (text : List Char) (mx : Nat) :
    nonwsAll (chunk_text text mx) = nonws text := by
  simp only [chunk_text]
  by_cases ht : text = []
  · simp [ht, nonwsAll, nonws_nil]
  · rw [if_neg ht]
    rw [flushChunks_nonws, foldl_processPara_nonws, splitParagraphs_nonws]
    rfl

theorem nonws_flatten (l : List (List Char)) :
    nonws l.flatten = nonwsAll l := by
  induction l with
  | nil => rfl
  | cons x t ih =>
    rw [List.flatten_cons, nonws_append, ih, nonwsAll_cons]

/-! ### Boundary-whitespace lemmas for strip and sentence pieces -/

theorem dropWhile_eq_self_of_head (p : Char → Bool) (s : List Char)
    (h : ∀ x ∈ s.head?, p x = false) : s.dropWhile p = s := by
  cases s with
  | nil => rfl
  | cons c t =>
    have hc : p c = false := h c rfl
    simp [List.dropWhile_cons, hc]

theorem head?_dropWhile (p : Char → Bool) (s : List Char) :
    ∀ x ∈ (s.dropWhile p).head?, p x = false := by
  induction s with
  | nil => intro x hx; cases hx
  | cons c t ih =>
    intro x hx
    by_cases hc : p c
    · rw [List.dropWhile_cons_of_pos hc] at hx
      exact ih x hx
    · rw [List.dropWhile_cons_of_neg hc] at hx
      cases hx
      simpa using hc

theorem stripChars_eq_self (s : List Char) (h1 : noLeadWs s) (h2 : noTrailWs s) :
    stripChars s = s := by
  unfold stripChars
  rw [dropWhile_eq_self_of_head _ _ h1]
  have h2' : ∀ x ∈ s.reverse.head?, isSpaceChar x = false := by
    intro x hx
    rw [List.head?_reverse] at hx
    exact h2 x hx
  rw [dropWhile_eq_self_of_head _ _ h2', List.reverse_reverse]

theorem stripChars_length_le (s : List Char) :
    (stripChars s).length ≤ s.length := by
  unfold stripChars
  rw [List.length_reverse]
  calc ((s.dropWhile isSpaceChar).reverse.dropWhile isSpaceChar).length
      ≤ (s.dropWhile isSpaceChar).reverse.length :=
        (List.dropWhile_suffix _).length_le
    _ = (s.dropWhile isSpaceChar).length := List.length_reverse _
    _ ≤ s.length := (List.dropWhile_suffix _).length_le

theorem noLeadWs_stripChars (s : List Char) : noLeadWs (stripChars s) := by
  unfold noLeadWs stripChars
  intro x hx
  rw [List.head?_reverse] at hx
  rcases hsuf : (s.dropWhile isSpaceChar).reverse.dropWhile isSpaceChar with _ | ⟨c, t⟩
  · rw [hsuf] at hx
    cases hx
  · have hne : (s.dropWhile isSpaceChar).reverse.dropWhile isSpaceChar ≠ [] := by
      rw [hsuf]
      exact List.cons_ne_nil c t
    obtain ⟨pre, hpre⟩ :=
      (show (s.dropWhile isSpaceChar).reverse.dropWhile isSpaceChar <:+
          (s.dropWhile isSpaceChar).reverse from List.dropWhile_suffix _)
    have hlast : ((s.dropWhile isSpaceChar).reverse.dropWhile isSpaceChar).getLast? =
        (s.dropWhile isSpaceChar).reverse.getLast? := by
      conv_rhs => rw [← hpre]
      exact (List.getLast?_append_of_ne_nil pre hne).symm
    rw [hlast, List.getLast?_reverse] at hx
    exact head?_dropWhile isSpaceChar s x hx

theorem noTrailWs_stripChars (s : List Char) : noTrailWs (stripChars s) := by
  unfold noTrailWs stripChars
  intro x hx
  rw [List.getLast?_reverse] at hx
  exact head?_dropWhile isSpaceChar _ x hx

theorem isSentEnd_not_space (c : Char) (h : isSentEnd c = true) :
    isSpaceChar c = false := by
  revert h
  unfold isSentEnd isSpaceChar
  rcases Nat.decEq c.toNat 46 with h46 | h46 <;>
    rcases Nat.decEq c.toNat 33 with h33 | h33 <;>
      rcases Nat.decEq c.toNat 63 with h63 | h63 <;>
        simp_all

theorem noTrailWs_suffix {l s : List Char} (h : noTrailWs l) (hs : s <:+ l) :
    noTrailWs s := by
  intro x hx
  obtain ⟨pre, rfl⟩ := hs
  have hne : s ≠ [] := by
    intro he
    rw [he] at hx
    cases hx
  rw [← List.getLast?_append_of_ne_nil pre hne] at hx
  exact h x hx

theorem head?_append_left (x y : List Char) (hx : x ≠ []) :
    (x ++ y).head? = x.head? := by
  cases x with
  | nil => exact absurd rfl hx
  | cons a t => rfl

theorem noLeadWs_append_left {x : List Char} (y : List Char) (h : noLeadWs x)
    (hx : x ≠ []) : noLeadWs (x ++ y) := by
  intro z hz
  rw [head?_append_left x y hx] at hz
  exact h z hz

theorem splitSentAux_boundary (l : List Char) :
    ∀ (skip : Bool) (cur : List Char),
      noLeadWs cur.reverse →
      (skip = true → cur = []) →
      (skip = false → cur = [] → noLeadWs l) →
      noTrailWs (cur.reverse ++ l) →
      ∀ s ∈ splitSentAux skip cur l, noLeadWs s ∧ noTrailWs s := by
  induction l with
  | nil =>
    intro skip cur hlead _ _ htrail s hs
    rw [splitSentAux] at hs
    rcases List.mem_singleton.mp hs with rfl
    exact ⟨hlead, by simpa using htrail⟩
  | cons c rest ih =>
    intro skip cur hlead hskip hstart htrail s hs
    rw [splitSentAux] at hs
    by_cases hsk : (skip && isSpaceChar c) = true
    · rw [if_pos hsk] at hs
      have hcur : cur = [] := hskip (Bool.and_eq_true_iff.mp hsk).1
      subst hcur
      refine ih true [] (by intro x hx; cases hx) (fun _ => rfl)
        (by intro h; cases h) ?_ s hs
      simp only [List.reverse_nil, List.nil_append] at htrail ⊢
      exact noTrailWs_suffix htrail ⟨[c], rfl⟩
    · rw [if_neg hsk] at hs
      by_cases hse : (isSentEnd c && headIsSpace rest) = true
      · rw [if_pos hse] at hs
        have hcse : isSentEnd c = true := (Bool.and_eq_true_iff.mp hse).1
        have hcw : isSpaceChar c = false := isSentEnd_not_space c hcse
        rcases List.mem_cons.mp hs with rfl | hs'
        · constructor
          · rw [List.reverse_cons]
            cases hc : cur.reverse with
            | nil =>
              simp only [hc, List.nil_append]
              intro x hx
              cases hx
              exact hcw
            | cons a t =>
              rw [← hc]
              refine noLeadWs_append_left [c] hlead ?_
              rw [hc]
              exact List.cons_ne_nil a t
          · rw [List.reverse_cons]
            intro x hx
            rw [List.getLast?_append_of_ne_nil cur.reverse
              (List.cons_ne_nil c [])] at hx
            cases hx
            exact hcw
        · refine ih true [] (by intro x hx; cases hx) (fun _ => rfl)
            (by intro h; cases h) ?_ s hs'
          simp only [List.reverse_nil, List.nil_append]
          exact noTrailWs_suffix htrail ⟨cur.reverse ++ [c], by simp⟩
      · rw [if_neg hse] at hs
        refine ih false (c :: cur) ?_ (by intro h; cases h) ?_ ?_ s hs
        · rw [List.reverse_cons]
          cases hc : cur.reverse with
          | nil =>
            simp only [hc, List.nil_append]
            intro x hx
            cases hx
            cases skip with
            | true =>
              have : isSpaceChar c = false := by
                rcases Bool.eq_false_or_eq_true (isSpaceChar c) with h | h
                · exact absurd (by simp [h]) hsk
                · exact h
              exact this
            | false =>
              have hcur : cur = [] := by
                have := congrArg List.reverse hc
                simpa using this
              have := hstart rfl hcur c rfl
              exact this
          | cons a t =>
            rw [← hc]
            refine noLeadWs_append_left [c] hlead ?_
            rw [hc]
            exact List.cons_ne_nil a t
        · intro h hcc
          exact absurd hcc (List.cons_ne_nil c cur)
        · rw [List.reverse_cons, List.append_assoc]
          simpa using htrail

theorem splitSentences_boundary (p : List Char) (h1 : noLeadWs p)
    (h2 : noTrailWs p) : ∀ s ∈ splitSentences p, noLeadWs s ∧ noTrailWs s := by
  refine splitSentAux_boundary p false [] (by intro x hx; cases hx)
    (by intro h; cases h) (fun _ _ => h1) (by simpa using h2)

theorem splitSentences_strip_eq (p0 : List Char) :
    ∀ s ∈ splitSentences (stripChars p0), stripChars s = s := by
  intro s hs
  obtain ⟨h1, h2⟩ := splitSentences_boundary (stripChars p0)
    (noLeadWs_stripChars p0) (noTrailWs_stripChars p0) s hs
  exact stripChars_eq_self s h1 h2

/-! ### The chunk length bound (claim C2 machinery) -/

theorem flushBuf_good (text : List Char) (mx : Nat) (p0 : List Char)
    (hp : p0 ∈ splitParagraphs text) (buf : List Char)
    (hbuf : buf.length ≤ mx ∨ buf ∈ splitSentences (stripChars p0)) :
    (stripChars buf).length ≤ mx ∨
      (sentenceUnitOf text (stripChars buf) ∧ mx < (stripChars buf).length) := by
  by_cases hlen : (stripChars buf).length ≤ mx
  · exact Or.inl hlen
  · rcases hbuf with hle | hmem
    · exact absurd (le_trans (stripChars_length_le buf) hle) hlen
    · have heq : stripChars buf = buf := splitSentences_strip_eq p0 buf hmem
      refine Or.inr ⟨⟨p0, hp, ?_⟩, Nat.lt_of_not_le hlen⟩
      rw [heq]
      exact hmem

theorem addSentence_inv (text : List Char) (mx : Nat) (p0 : List Char)
    (hp : p0 ∈ splitParagraphs text) (st : List (List Char) × List Char)
    (s : List Char) (hs : s ∈ splitSentences (stripChars p0))
    (hchunks : ∀ c ∈ st.1,
      c.length ≤ mx ∨ (sentenceUnitOf text c ∧ mx < c.length))
    (hbuf : st.2.length ≤ mx ∨ st.2 ∈ splitSentences (stripChars p0)) :
    (∀ c ∈ (addSentence mx st s).1,
      c.length ≤ mx ∨ (sentenceUnitOf text c ∧ mx < c.length)) ∧
      ((addSentence mx st s).2.length ≤ mx ∨
        (addSentence mx st s).2 ∈ splitSentences (stripChars p0)) := by
  unfold addSentence
  by_cases hof : st.2.length + s.length + 1 > mx
  · rw [if_pos hof]
    refine ⟨?_, Or.inr hs⟩
    by_cases hb : st.2 = []
    · rw [if_pos hb]
      exact hchunks
    · rw [if_neg hb]
      intro c hc
      rcases List.mem_append.mp hc with hc1 | hc2
      · exact hchunks c hc1
      · rcases List.mem_singleton.mp hc2 with rfl
        exact flushBuf_good text mx p0 hp st.2 hbuf
  · rw [if_neg hof]
    refine ⟨hchunks, Or.inl ?_⟩
    have hof' : st.2.length + s.length + 1 ≤ mx := Nat.le_of_not_lt hof
    by_cases hb : st.2 = []
    · rw [if_pos hb]
      rw [hb] at hof'
      simpa using Nat.le_of_succ_le (by simpa using hof')
    · rw [if_neg hb]
      rw [List.length_append, List.length_cons]
      omega

theorem foldl_addSentence_inv (text : List Char) (mx : Nat) (p0 : List Char)
    (hp : p0 ∈ splitParagraphs text) (ss : List (List Char))
    (hss : ∀ s ∈ ss, s ∈ splitSentences (stripChars p0)) :
    ∀ st : List (List Char) × List Char,
      (∀ c ∈ st.1, c.length ≤ mx ∨ (sentenceUnitOf text c ∧ mx < c.length)) →
      (st.2.length ≤ mx ∨ st.2 ∈ splitSentences (stripChars p0)) →
      (∀ c ∈ (ss.foldl (addSentence mx) st).1,
        c.length ≤ mx ∨ (sentenceUnitOf text c ∧ mx < c.length)) ∧
        ((ss.foldl (addSentence mx) st).2.length ≤ mx ∨
          (ss.foldl (addSentence mx) st).2 ∈ splitSentences (stripChars p0)) := by
  induction ss with
  | nil =>
    intro st h1 h2
    exact ⟨h1, h2⟩
  | cons s rest ih =>
    intro st h1 h2
    rw [List.foldl_cons]
    have hstep := addSentence_inv text mx p0 hp st s
      (hss s (List.mem_cons_self s rest)) h1 h2
    exact ih (fun s' hs' => hss s' (List.mem_cons_of_mem s hs'))
      (addSentence mx st s) hstep.1 hstep.2

theorem processPara_inv (text : List Char) (mx : Nat) (p0 : List Char)
    (hp : p0 ∈ splitParagraphs text) (st : List (List Char) × List Char)
    (hchunks : ∀ c ∈ st.1,
      c.length ≤ mx ∨ (sentenceUnitOf text c ∧ mx < c.length))
    (hcur : st.2.length ≤ mx) :
    (∀ c ∈ (processPara mx st p0).1,
      c.length ≤ mx ∨ (sentenceUnitOf text c ∧ mx < c.length)) ∧
      (processPara mx st p0).2.length ≤ mx := by
  have hflushcur : ∀ c ∈ (if st.2 = [] then st.1 else st.1 ++ [stripChars st.2]),
      c.length ≤ mx ∨ (sentenceUnitOf text c ∧ mx < c.length) := by
    by_cases hb : st.2 = []
    · rw [if_pos hb]
      exact hchunks
    · rw [if_neg hb]
      intro c hc
      rcases List.mem_append.mp hc with hc1 | hc2
      · exact hchunks c hc1
      · rcases List.mem_singleton.mp hc2 with rfl
        exact Or.inl (le_trans (stripChars_length_le st.2) hcur)
  simp only [processPara]
  by_cases h1 : stripChars p0 = []
  · rw [if_pos h1]
    exact ⟨hchunks, hcur⟩
  · rw [if_neg h1]
    by_cases h2 : st.2.length + (stripChars p0).length + 1 > mx
    · rw [if_pos h2]
      by_cases h3 : (stripChars p0).length > mx
      · rw [if_pos h3]
        simp only []
        have hfold := foldl_addSentence_inv text mx p0 hp
          (splitSentences (stripChars p0)) (fun s hs => hs)
          ((if st.2 = [] then st.1 else st.1 ++ [stripChars st.2]), [])
          hflushcur (Or.inl (by simp))
        refine ⟨?_, by simp⟩
        set r := (splitSentences (stripChars p0)).foldl (addSentence mx)
          ((if st.2 = [] then st.1 else st.1 ++ [stripChars st.2]), []) with hr
        by_cases hb2 : r.2 = []
        · rw [if_pos hb2]
          exact hfold.1
        · rw [if_neg hb2]
          intro c hc
          rcases List.mem_append.mp hc with hc1 | hc2
          · exact hfold.1 c hc1
          · rcases List.mem_singleton.mp hc2 with rfl
            exact flushBuf_good text mx p0 hp r.2 hfold.2
      · rw [if_neg h3]
        exact ⟨hflushcur, Nat.le_of_not_lt h3⟩
    · rw [if_neg h2]
      refine ⟨hchunks, ?_⟩
      have h2' : st.2.length + (stripChars p0).length + 1 ≤ mx :=
        Nat.le_of_not_lt h2
      by_cases hb : st.2 = []
      · rw [if_pos hb]
        rw [hb] at h2'
        simp only [List.length_nil, Nat.zero_add] at h2'
        show (stripChars p0).length ≤ mx
        omega
      · rw [if_neg hb]
        show (st.2 ++ '\n' :: stripChars p0).length ≤ mx
        rw [List.length_append, List.length_cons]
        omega

theorem foldl_processPara_inv (text : List Char) (mx : Nat)
    (ps : List (List Char)) (hps : ∀ p ∈ ps, p ∈ splitParagraphs text) :
    ∀ st : List (List Char) × List Char,
      (∀ c ∈ st.1, c.length ≤ mx ∨ (sentenceUnitOf text c ∧ mx < c.length)) →
      st.2.length ≤ mx →
      (∀ c ∈ (ps.foldl (processPara mx) st).1,
        c.length ≤ mx ∨ (sentenceUnitOf text c ∧ mx < c.length)) ∧
        (ps.foldl (processPara mx) st).2.length ≤ mx := by
  induction ps with
  | nil =>
    intro st h1 h2
    exact ⟨h1, h2⟩
  | cons p rest ih =>
    intro st h1 h2
    rw [List.foldl_cons]
    have hstep := processPara_inv text mx p
      (hps p (List.mem_cons_self p rest)) st h1 h2
    exact ih (fun p' hp' => hps p' (List.mem_cons_of_mem p hp'))
      (processPara mx st p) hstep.1 hstep.2

theorem chunk_text_bound (text : List Char) (mx : Nat) :
    ∀ c ∈ chunk_text text mx,
      c.length ≤ mx ∨ (sentenceUnitOf text c ∧ mx < c.length) := by
  intro c hc
  rw [chunk_text] at hc
  by_cases ht : text = []
  · rw [if_pos ht] at hc
    cases hc
  · rw [if_neg ht] at hc
    simp only [] at hc
    have hfold := foldl_processPara_inv text mx (splitParagraphs text)
      (fun p hp => hp) ([], []) (by intro c' hc'; cases hc') (by simp)
    set r := (splitParagraphs text).foldl (processPara mx) ([], []) with hr
    by_cases hb : r.2 = []
    · rw [if_pos hb] at hc
      exact hfold.1 c hc
    · rw [if_neg hb] at hc
      rcases List.mem_append.mp hc with hc1 | hc2
      · exact hfold.1 c hc1
      · rcases List.mem_singleton.mp hc2 with rfl
        by_cases hlen : (stripChars r.2).length ≤ mx
        · exact Or.inl hlen
        · exact absurd (le_trans (stripChars_length_le r.2) hfold.2) hlen

/-! ### Retriever lemmas: stable descending sort -/

theorem mem_insertDesc (a x : MatchR) (l : List MatchR) :
    x ∈ insertDesc a l ↔ x = a ∨ x ∈ l := by
  induction l with
  | nil => simp [insertDesc]
  | cons b t ih =>
    rw [insertDesc]
    by_cases h : b.score > a.score
    · rw [if_pos h]
      simp only [List.mem_cons, ih]
      tauto
    · rw [if_neg h]
      exact List.mem_cons

theorem length_insertDesc (a : MatchR) (l : List MatchR) :
    (insertDesc a l).length = l.length + 1 := by
  induction l with
  | nil => rfl
  | cons b t ih =>
    rw [insertDesc]
    by_cases h : b.score > a.score
    · rw [if_pos h]
      simp [ih]
    · rw [if_neg h]
      simp

theorem length_sortDesc (l : List MatchR) : (sortDesc l).length = l.length := by
  induction l with
  | nil => rfl
  | cons a t ih =>
    rw [sortDesc, length_insertDesc, ih, List.length_cons]

theorem mem_sortDesc (x : MatchR) (l : List MatchR) :
    x ∈ sortDesc l ↔ x ∈ l := by
  induction l with
  | nil => simp [sortDesc]
  | cons a t ih =>
    rw [sortDesc, mem_insertDesc]
    simp [ih]

theorem insertDesc_sorted (a : MatchR) (l : List MatchR)
    (h : l.Pairwise (fun x y : MatchR => y.score ≤ x.score)) :
    (insertDesc a l).Pairwise (fun x y : MatchR => y.score ≤ x.score) := by
  induction l with
  | nil => simp [insertDesc]
  | cons b t ih =>
    rw [insertDesc]
    rcases List.pairwise_cons.mp h with ⟨hb, ht⟩
    by_cases hgt : b.score > a.score
    · rw [if_pos hgt]
      refine List.pairwise_cons.mpr ⟨?_, ih ht⟩
      intro y hy
      rcases (mem_insertDesc a y t).mp hy with rfl | hy'
      · exact Nat.le_of_lt hgt
      · exact hb y hy'
    · rw [if_neg hgt]
      refine List.pairwise_cons.mpr ⟨?_, h⟩
      intro y hy
      rcases List.mem_cons.mp hy with rfl | hy'
      · exact Nat.le_of_not_lt hgt
      · exact le_trans (hb y hy') (Nat.le_of_not_lt hgt)

theorem sortDesc_sorted (l : List MatchR) :
    (sortDesc l).Pairwise (fun x y : MatchR => y.score ≤ x.score) := by
  induction l with
  | nil => simp [sortDesc]
  | cons a t ih => exact insertDesc_sorted a (sortDesc t) ih

theorem insertDesc_filter_score (a : MatchR) (l : List MatchR) (s : Nat) :
    (insertDesc a l).filter (fun m => m.score == s) =
      (a :: l).filter (fun m => m.score == s) := by
  induction l with
  | nil => rfl
  | cons b t ih =>
    rw [insertDesc]
    by_cases hgt : b.score > a.score
    · rw [if_pos hgt]
      simp only [List.filter_cons, ih]
      by_cases ha : a.score = s
      · have hb : ¬(b.score = s) := by omega
        simp [ha, hb]
      · simp [ha]
    · rw [if_neg hgt]

theorem sortDesc_filter_score (l : List MatchR) (s : Nat) :
    (sortDesc l).filter (fun m => m.score == s) =
      l.filter (fun m => m.score == s) := by
  induction l with
  | nil => rfl
  | cons a t ih =>
    rw [sortDesc, insertDesc_filter_score, List.filter_cons, List.filter_cons,
      ih]

/-! ### Retriever lemmas: candidates and membership -/

theorem docCandidates_score (tokens : List (List Char)) (uf : Doc) (m : MatchR)
    (h : m ∈ docCandidates tokens uf) :
    m.score = chunkScore tokens (tokenize (lowerStr m.chunk)) ∧ 0 < m.score := by
  rw [docCandidates] at h
  obtain ⟨ic, _, hf⟩ := List.mem_filterMap.mp h
  simp only [] at hf
  by_cases h1 : tokenize (lowerStr ic.2) = []
  · rw [if_pos h1] at hf
    cases hf
  · rw [if_neg h1] at hf
    by_cases h2 : chunkScore tokens (tokenize (lowerStr ic.2)) > 0
    · rw [if_pos h2] at hf
      cases hf
      exact ⟨rfl, h2⟩
    · rw [if_neg h2] at hf
      cases hf

theorem mem_retrievalCandidates_score (q : List Char) (corpus : List Doc)
    (m : MatchR) (h : m ∈ retrievalCandidates q corpus) :
    m.score = queryChunkScore q m.chunk ∧ 0 < m.score := by
  rw [retrievalCandidates] at h
  obtain ⟨l, hl, hm⟩ := List.mem_flatten.mp h
  obtain ⟨uf, _, rfl⟩ := List.mem_map.mp hl
  exact docCandidates_score (tokenize (lowerStr q)) uf m hm

theorem mem_simple_retrieve (corpus : List Doc) (q : List Char) (k : Nat)
    (m : MatchR) (h : m ∈ simple_retrieve corpus q k) :
    m ∈ retrievalCandidates q corpus := by
  rw [simple_retrieve] at h
  by_cases ht : tokenize (lowerStr q) = []
  · rw [if_pos ht] at h
    cases h
  · rw [if_neg ht] at h
    rw [retrievalCandidates]
    exact (mem_sortDesc m _).mp (List.mem_of_mem_take h)

theorem simple_retrieve_eq_take (corpus : List Doc) (q : List Char) (k : Nat)
    (ht : tokenize (lowerStr q) ≠ []) :
    simple_retrieve corpus q k =
      (sortDesc (retrievalCandidates q corpus)).take k := by
  rw [simple_retrieve, if_neg ht, retrievalCandidates]

/-! ### Retriever lemmas: counting positive-score chunks (claim C5) -/

theorem chunkScore_nil_words (tokens : List (List Char)) :
    chunkScore tokens [] = 0 := by
  induction tokens with
  | nil => rfl
  | cons t rest ih =>
    rw [chunkScore, List.map_cons, List.sum_cons]
    rw [chunkScore] at ih
    simp [ih, List.count_nil]

theorem filterMap_cand_length (tokens : List (List Char)) (nm : List Char)
    (l : List (List Char)) : ∀ n : Nat,
    ((List.enumFrom n l).filterMap (fun ic =>
      let words := tokenize (lowerStr ic.2)
      if words = [] then none
      else
        let score := chunkScore tokens words
        if score > 0 then some (⟨nm, ic.2, score, ic.1⟩ : MatchR)
        else none)).length =
      (l.filter (fun ch => 0 < chunkScore tokens (tokenize (lowerStr ch)))).length := by
  induction l with
  | nil => intro n; rfl
  | cons ch t ih =>
    intro n
    rw [List.enumFrom_cons, List.filterMap_cons, List.filter_cons]
    by_cases h1 : tokenize (lowerStr ch) = []
    · have hsc : ¬(0 < chunkScore tokens ([] : List (List Char))) := by
        rw [chunkScore_nil_words]
        omega
      simp only [h1, ite_true, reduceIte, if_pos]
      rw [if_neg (by simpa using hsc)]
      exact ih (n + 1)
    · by_cases h2 : chunkScore tokens (tokenize (lowerStr ch)) > 0
      · simp only [if_neg h1, if_pos h2]
        rw [if_pos (by simpa using h2)]
        simp only [List.length_cons]
        rw [ih (n + 1)]
      · simp only [if_neg h1, if_neg h2]
        rw [if_neg (by simpa using h2)]
        exact ih (n + 1)

theorem docCandidates_length (tokens : List (List Char)) (uf : Doc) :
    (docCandidates tokens uf).length =
      (uf.chunks.filter
        (fun ch => 0 < chunkScore tokens (tokenize (lowerStr ch)))).length := by
  rw [docCandidates]
  exact filterMap_cand_length tokens uf.name uf.chunks 0

theorem retrievalCandidates_length (q : List Char) (corpus : List Doc) :
    (retrievalCandidates q corpus).length = countPositiveChunks q corpus := by
  rw [retrievalCandidates, countPositiveChunks]
  induction corpus with
  | nil => rfl
  | cons uf rest ih =>
    rw [List.map_cons, List.flatten_cons, List.length_append, ih,
      List.map_cons, List.sum_cons, docCandidates_length]
    rfl

/-! ### Tokenisation of queries without word characters (claim C8) -/

theorem toLower_not_word (c : Char) (h : isWordChar c = false) :
    Char.toLower c = c := by
  have hcond : ¬(c.toNat ≥ 65 ∧ c.toNat ≤ 90) := by
    intro hc
    simp only [isWordChar, Bool.or_eq_false_iff, Bool.and_eq_false_iff,
      decide_eq_false_iff_not, Nat.not_le, beq_eq_false_iff_ne] at h
    omega
  unfold Char.toLower
  exact if_neg hcond

theorem tokAux_nil_of_nonword (l : List Char)
    (h : ∀ c ∈ l, isWordChar c = false) : tokAux [] l = [] := by
  induction l with
  | nil => rfl
  | cons c rest ih =>
    rw [tokAux, if_neg (by simp [h c (List.mem_cons_self c rest)]),
      if_pos rfl]
    exact ih (fun c' hc' => h c' (List.mem_cons_of_mem c hc'))

theorem tokenize_lower_nil (q : List Char)
    (h : ∀ c ∈ q, isWordChar c = false) : tokenize (lowerStr q) = [] := by
  rw [tokenize]
  refine tokAux_nil_of_nonword (lowerStr q) ?_
  intro c hc
  obtain ⟨c0, hc0, rfl⟩ := List.mem_map.mp hc
  rw [toLower_not_word c0 (h c0 hc0)]
  exact h c0 hc0

/-! ### Highlighter decomposition (claim C9 machinery) -/

theorem subWAux_split_at_nonword (f : List Char → List Char) (pre : List Char) :
    ∀ (cur mid : List Char) (c : Char), isWordChar c = false →
      subWAux f cur (pre ++ c :: mid) =
        subWAux f cur (pre ++ [c]) ++ subWAux f [] mid := by
  induction pre with
  | nil =>
    intro cur mid c hc
    by_cases hcur : cur = []
    · subst hcur
      simp [subWAux, hc]
    · simp [subWAux, hc, hcur]
  | cons a pre' ih =>
    intro cur mid c hc
    simp only [List.cons_append]
    rw [subWAux, subWAux]
    by_cases ha : isWordChar a
    · rw [if_pos ha, if_pos ha]
      exact ih (a :: cur) mid c hc
    · rw [if_neg ha, if_neg ha]
      by_cases hcur : cur = []
      · rw [if_pos hcur, if_pos hcur, ih [] mid c hc]
        rfl
      · rw [if_neg hcur, if_neg hcur, ih [] mid c hc]
        simp

theorem subWAux_word_run (f : List Char → List Char) (w : List Char) :
    ∀ (cur post : List Char), (∀ c ∈ w, isWordChar c = true) → w ≠ [] →
      (∀ c ∈ post.head?, isWordChar c = false) →
      subWAux f cur (w ++ post) =
        f (cur.reverse ++ w) ++ subWAux f [] post := by
  induction w with
  | nil =>
    intro cur post _ hne _
    exact absurd rfl hne
  | cons a w' ih =>
    intro cur post hw _ hpost
    have ha : isWordChar a = true := hw a (List.mem_cons_self a w')
    simp only [List.cons_append]
    rw [subWAux, if_pos ha]
    by_cases hw' : w' = []
    · subst hw'
      simp only [List.nil_append]
      cases post with
      | nil =>
        rw [subWAux, if_neg (List.cons_ne_nil a cur)]
        simp [subWAux]
      | cons d post' =>
        have hd : isWordChar d = false := hpost d rfl
        rw [subWAux, if_neg (by simp [hd]), if_neg (List.cons_ne_nil a cur)]
        rw [subWAux, if_neg (by simp [hd]), if_pos rfl]
        simp
    · rw [ih (a :: cur) post
        (fun c hc => hw c (List.mem_cons_of_mem a hc)) hw' hpost]
      simp

theorem highlight_nil (q : List Char) : highlight q [] = [] := rfl

theorem highlight_decomp (q pre w post : List Char)
    (hw : ∀ c ∈ w, isWordChar c = true) (hne : w ≠ [])
    (hpre : ∀ c ∈ pre.getLast?, isWordChar c = false)
    (hpost : ∀ c ∈ post.head?, isWordChar c = false) :
    highlight q (pre ++ w ++ post) =
      highlight q pre ++ replTok q w ++ highlight q post := by
  rcases List.eq_nil_or_concat pre with rfl | ⟨pre0, c, rfl⟩
  · simp only [List.nil_append]
    rw [highlight, highlight,
      subWAux_word_run (replTok q) w [] post hw hne hpost]
    simp [highlight, subWAux]
  · have hc : isWordChar c = false := by
      refine hpre c ?_
      rw [List.concat_eq_append, List.getLast?_concat]
      rfl
    rw [List.concat_eq_append] at hpre ⊢
    rw [highlight, highlight]
    have hassoc : pre0 ++ [c] ++ w ++ post = pre0 ++ c :: (w ++ post) := by
      simp
    rw [hassoc, subWAux_split_at_nonword (replTok q) pre0 [] (w ++ post) c hc,
      subWAux_word_run (replTok q) w [] post hw hne hpost]
    simp [highlight]

theorem subWAux_congr (f g : List Char → List Char) (hfg : ∀ w, f w = g w)
    (l : List Char) : ∀ cur, subWAux f cur l = subWAux g cur l := by
  induction l with
  | nil =>
    intro cur
    rw [subWAux, subWAux]
    by_cases hcur : cur = []
    · rw [if_pos hcur, if_pos hcur]
    · rw [if_neg hcur, if_neg hcur, hfg]
  | cons c rest ih =>
    intro cur
    rw [subWAux, subWAux]
    by_cases hc : isWordChar c
    · rw [if_pos hc, if_pos hc, ih]
    · rw [if_neg hc, if_neg hc]
      by_cases hcur : cur = []
      · rw [if_pos hcur, if_pos hcur, ih]
      · rw [if_neg hcur, if_neg hcur, hfg, ih]

theorem replTok_congr (q q' : List Char)
    (h : ∀ t, t ∈ qtokens q ↔ t ∈ qtokens q') (w : List Char) :
    replTok q w = replTok q' w := by
  rw [replTok, replTok]
  by_cases hm : lowerStr w ∈ qtokens q
  · rw [if_pos hm, if_pos ((h (lowerStr w)).mp hm)]
  · rw [if_neg hm, if_neg (fun hm' => hm ((h (lowerStr w)).mpr hm'))]

/-! ### Indexer and extractor lemmas (claims C6, C7, C10) -/

theorem index_uploaded_files_eq (pdfLib docxLib : ExtractLib)
    (files : List UploadedFile) : ∀ corpus : List Doc,
    index_uploaded_files pdfLib docxLib corpus files =
      corpus ++ files.map (indexedDoc pdfLib docxLib) := by
  unfold index_uploaded_files
  induction files with
  | nil =>
    intro corpus
    simp
  | cons f rest ih =>
    intro corpus
    rw [List.foldl_cons, ih (corpus ++ [indexedDoc pdfLib docxLib f]),
      List.map_cons]
    simp

theorem latin1Char_ok (b : Byte) : latin1Char b = Except.ok (Char.ofNat b.val) := by
  have hb := b.isLt
  have hc : (b.val < 1114112 && !(55296 ≤ b.val && b.val < 57344)) = true := by
    have h1 : b.val < 1114112 := by omega
    have h2 : ¬(55296 ≤ b.val) := by omega
    simp [h1, h2]
  rw [latin1Char, if_pos hc]

theorem latin1DecodeE_ok (data : List Byte) :
    latin1DecodeE data = Except.ok (data.map (fun b => Char.ofNat b.val)) := by
  induction data with
  | nil => rfl
  | cons b rest ih =>
    rw [latin1DecodeE, latin1Char_ok, ih, List.map_cons]

theorem bytesRepr_ne_nil (data : List Byte) : bytesRepr data ≠ [] := by
  rw [bytesRepr]
  exact List.cons_ne_nil _ _

theorem take_ne_nil_of_ne_nil (t : List Char) (n : Nat) (hn : 0 < n)
    (ht : t ≠ []) : t.take n ≠ [] := by
  cases t with
  | nil => exact absurd rfl ht
  | cons c t' =>
    cases n with
    | zero => omega
    | succ m =>
      rw [List.take_succ_cons]
      exact List.cons_ne_nil _ _

theorem parseUploadedFileE_ok (pdfLib docxLib : ExtractLib) (name : List Char)
    (data : List Byte) :
    ∃ t, parseUploadedFileE pdfLib docxLib name data = Except.ok t ∧ t ≠ [] := by
  rw [parseUploadedFileE]
  by_cases h : extractedText pdfLib docxLib name data = []
  · rw [if_pos h]
    exact ⟨bytesRepr data, rfl, bytesRepr_ne_nil data⟩
  · rw [if_neg h]
    exact ⟨extractedText pdfLib docxLib name data, rfl, h⟩

theorem countPositiveChunks_nil_tokens (q : List Char) (corpus : List Doc)
    (ht : tokenize (lowerStr q) = []) : countPositiveChunks q corpus = 0 := by
  rw [countPositiveChunks]
  refine List.sum_eq_zero ?_
  intro x hx
  obtain ⟨uf, _, rfl⟩ := List.mem_map.mp hx
  rw [List.length_eq_zero]
  rw [List.filter_eq_nil_iff]
  intro ch _
  rw [queryChunkScore, ht]
  simp [chunkScore]

/-! ### The claims -/

/-- C1: every match returned by the retriever carries a score equal to the
sum, over the query's token list with repeats kept, of that token's number
of occurrences among the chunk's tokens; in particular chunk
`"cat cat dog"` scores 2 against query `"cat"` and 4 against query
`"cat cat"`. -/
theorem claim_C1 :
    (∀ (corpus : List Doc) (q : List Char) (k : Nat) (m : MatchR),
      m ∈ simple_retrieve corpus q k → m.score = queryChunkScore q m.chunk) ∧
      queryChunkScore (("cat").toList) (("cat cat dog").toList) = 2 ∧
      queryChunkScore (("cat cat").toList) (("cat cat dog").toList) = 4 := by
  refine ⟨?_, by decide, by decide⟩
  intro corpus q k m hm
  exact (mem_retrievalCandidates_score q corpus m
    (mem_simple_retrieve corpus q k m hm)).1

theorem claim_C1_witness :
    (⟨("f.txt").toList, ("cat cat dog").toList, 2, 0⟩ : MatchR) ∈
        simple_retrieve
          [⟨("f.txt").toList, ("cat cat dog").toList, [("cat cat dog").toList]⟩]
          (("cat").toList) 3 ∧
      (⟨("f.txt").toList, ("cat cat dog").toList, 2, 0⟩ : MatchR).score =
        queryChunkScore (("cat").toList)
          (⟨("f.txt").toList, ("cat cat dog").toList, 2, 0⟩ : MatchR).chunk :=
  ⟨by decide, claim_C1.1
    [⟨("f.txt").toList, ("cat cat dog").toList, [("cat cat dog").toList]⟩]
    (("cat").toList) 3 ⟨("f.txt").toList, ("cat cat dog").toList, 2, 0⟩
    (by decide)⟩

/-- C2: every chunk produced by `chunk_text` has length at most `mx`,
except possibly a chunk that is itself a single sentence-like unit (a
piece of the sentence split of a stripped paragraph of the text, emitted
whole and unsplit) whose own length exceeds `mx`. -/
theorem claim_C2 (text : List Char) (mx : Nat) (c : List Char)
    (hc : c ∈ chunk_text text mx) :
    c.length ≤ mx ∨ (sentenceUnitOf text c ∧ mx < c.length) :=
  chunk_text_bound text mx c hc

theorem claim_C2_witness :
    ("abcdefg.").toList ∈ chunk_text (("abcdefg. hi").toList) 4 ∧
      ((("abcdefg.").toList : List Char).length ≤ 4 ∨
        (sentenceUnitOf (("abcdefg. hi").toList) (("abcdefg.").toList) ∧
          4 < (("abcdefg.").toList : List Char).length)) :=
  ⟨by decide,
    claim_C2 (("abcdefg. hi").toList) 4 (("abcdefg.").toList) (by decide)⟩

/-- C3: concatenating, in order, all chunks returned by `chunk_text` and
restricting to non-whitespace characters reconstructs exactly the
non-whitespace characters of the original text. -/
theorem claim_C3 (text : List Char) (mx : Nat) :
    nonws (chunk_text text mx).flatten = nonws text := by
  rw [nonws_flatten]
  exact chunk_text_nonws text mx

/-- C4: the sequence returned by the retriever is sorted in non-increasing
score order, and for every score value the matches carrying that score are
an initial segment, in unchanged order, of the equally-scored candidates in
document-by-document, chunk-by-chunk encounter order (stable descending
sort, no secondary key). -/
theorem claim_C4 (corpus : List Doc) (q : List Char) (k : Nat) :
    (simple_retrieve corpus q k).Pairwise
        (fun a b : MatchR => b.score ≤ a.score) ∧
      ∀ s : Nat, ∃ rest,
        (retrievalCandidates q corpus).filter (fun m => m.score == s) =
          (simple_retrieve corpus q k).filter (fun m => m.score == s) ++
            rest := by
  by_cases ht : tokenize (lowerStr q) = []
  · constructor
    · simp only [simple_retrieve]
      rw [if_pos ht]
      exact List.Pairwise.nil
    · intro s
      refine ⟨(retrievalCandidates q corpus).filter (fun m => m.score == s), ?_⟩
      simp only [simple_retrieve]
      rw [if_pos ht]
      simp
  · rw [simple_retrieve_eq_take corpus q k ht]
    constructor
    · exact (sortDesc_sorted _).sublist (List.take_sublist k _)
    · intro s
      refine ⟨((sortDesc (retrievalCandidates q corpus)).drop k).filter
        (fun m => m.score == s), ?_⟩
      rw [← List.filter_append, List.take_append_drop, sortDesc_filter_score]

/-- C5: the retriever returns exactly `min k (number of corpus chunks with
strictly positive score against the query)` matches — in particular never
more than `k` — and every returned match has strictly positive score, so
zero-score chunks never appear in the result. -/
theorem claim_C5 (corpus : List Doc) (q : List Char) (k : Nat) :
    (simple_retrieve corpus q k).length =
        min k (countPositiveChunks q corpus) ∧
      (simple_retrieve corpus q k).length ≤ k ∧
      ∀ m ∈ simple_retrieve corpus q k, 0 < m.score := by
  have hmain : (simple_retrieve corpus q k).length =
      min k (countPositiveChunks q corpus) := by
    by_cases ht : tokenize (lowerStr q) = []
    · rw [countPositiveChunks_nil_tokens q corpus ht]
      simp only [simple_retrieve]
      rw [if_pos ht]
      simp
    · rw [simple_retrieve_eq_take corpus q k ht, List.length_take,
        length_sortDesc, retrievalCandidates_length]
  refine ⟨hmain, by rw [hmain]; exact Nat.min_le_left _ _, ?_⟩
  intro m hm
  exact (mem_retrievalCandidates_score q corpus m
    (mem_simple_retrieve corpus q k m hm)).2

theorem claim_C5_witness :
    (⟨("d.txt").toList, ("dog").toList, 1, 0⟩ : MatchR) ∈
        simple_retrieve [⟨("d.txt").toList, ("dog").toList, [("dog").toList]⟩]
          (("dog").toList) 5 ∧
      0 < (⟨("d.txt").toList, ("dog").toList, 1, 0⟩ : MatchR).score :=
  ⟨by decide,
    (claim_C5 [⟨("d.txt").toList, ("dog").toList, [("dog").toList]⟩]
      (("dog").toList) 5).2.2
      ⟨("d.txt").toList, ("dog").toList, 1, 0⟩ (by decide)⟩

/-- C6: a non-empty upload batch `B` replaces the corpus wholesale: after
uploading batch `A` and then batch `B`, the corpus is exactly the indexed
documents of `B` in batch order, independent of the prior corpus, with no
deduplication by name. -/
theorem claim_C6 (pdfLib docxLib : ExtractLib) (corpus : List Doc)
    (A B : List UploadedFile) (hB : B ≠ []) :
    uploadHandler pdfLib docxLib (uploadHandler pdfLib docxLib corpus A) B =
      B.map (indexedDoc pdfLib docxLib) := by
  rw [uploadHandler, if_neg hB, index_uploaded_files_eq]
  simp

theorem claim_C6_witness :
    ([⟨("b.txt").toList, [104, 105]⟩] : List UploadedFile) ≠ [] ∧
      uploadHandler none none
          (uploadHandler none none [] [⟨("a.txt").toList, [97]⟩])
          [⟨("b.txt").toList, [104, 105]⟩] =
        ([⟨("b.txt").toList, [104, 105]⟩] : List UploadedFile).map
          (indexedDoc none none) :=
  ⟨by decide, claim_C6 none none [] [⟨("a.txt").toList, [97]⟩]
    [⟨("b.txt").toList, [104, 105]⟩] (by decide)⟩

/-- C7: extraction never raises to its caller — for every file name, byte
sequence and backend behaviour (absent or raising included) the parser
returns a string; Latin-1 decoding succeeds on every byte sequence (one
character per byte); on the plain-text path a UTF-8 failure falls through
to the Latin-1 decoding; and a missing PDF backend yields empty text that
falls through to the best-effort byte rendering. -/
theorem claim_C7 :
    (∀ (pdfLib docxLib : ExtractLib) (name : List Char) (data : List Byte),
      ∃ t, parseUploadedFileE pdfLib docxLib name data = Except.ok t) ∧
      (∀ data : List Byte, ∃ s, latin1DecodeE data = Except.ok s ∧
        s.length = data.length) ∧
      (∀ (pdfLib docxLib : ExtractLib) (name : List Char) (data : List Byte),
        ¬pdfSuffix.isSuffixOf (lowerStr name) = true →
        ¬docxSuffix.isSuffixOf (lowerStr name) = true →
        utf8DecodeE data = Except.error () →
        extractedText pdfLib docxLib name data =
          data.map (fun b => Char.ofNat b.val)) ∧
      (∀ (name : List Char) (data : List Byte),
        pdfSuffix.isSuffixOf (lowerStr name) = true →
        parseUploadedFileE none none name data =
          Except.ok (bytesRepr data)) := by
  refine ⟨?_, ?_, ?_, ?_⟩
  · intro pdfLib docxLib name data
    obtain ⟨t, hok, _⟩ := parseUploadedFileE_ok pdfLib docxLib name data
    exact ⟨t, hok⟩
  · intro data
    exact ⟨data.map (fun b => Char.ofNat b.val), latin1DecodeE_ok data,
      by rw [List.length_map]⟩
  · intro pdfLib docxLib name data hpdf hdocx hutf
    simp only [extractedText]
    rw [if_neg hpdf, if_neg hdocx, hutf, latin1DecodeE_ok data]
  · intro name data hpdf
    have hempty : extractedText none none name data = [] := by
      simp only [extractedText]
      rw [if_pos hpdf]
      rfl
    simp only [parseUploadedFileE]
    rw [if_pos hempty]
    rfl

theorem claim_C7_witness :
    ¬pdfSuffix.isSuffixOf (lowerStr (("a.txt").toList)) = true ∧
      ¬docxSuffix.isSuffixOf (lowerStr (("a.txt").toList)) = true ∧
      utf8DecodeE ([255] : List Byte) = Except.error () ∧
      extractedText none none (("a.txt").toList) ([255] : List Byte) =
        ([255] : List Byte).map (fun b => Char.ofNat b.val) :=
  ⟨by decide, by decide, rfl,
    claim_C7.2.2.1 none none (("a.txt").toList) ([255] : List Byte)
      (by decide) (by decide) rfl⟩

/-- C8: a query containing no word characters (for example the empty or a
whitespace-only string) makes the retriever return the empty sequence for
every corpus and every `top_k`. -/
theorem claim_C8 (q : List Char) (hq : ∀ c ∈ q, isWordChar c = false)
    (corpus : List Doc) (k : Nat) : simple_retrieve corpus q k = [] := by
  simp only [simple_retrieve]
  rw [if_pos (tokenize_lower_nil q hq)]

theorem claim_C8_witness :
    (∀ c ∈ ("   ").toList, isWordChar c = false) ∧
      simple_retrieve [⟨("d").toList, ("cat").toList, [("cat").toList]⟩]
        (("   ").toList) 5 = [] :=
  ⟨by decide, claim_C8 (("   ").toList) (by decide)
    [⟨("d").toList, ("cat").toList, [("cat").toList]⟩] 5⟩

/-- C9: in the rendered snippet, a maximal word run `w` is wrapped in
backtick markers iff its lower-cased form belongs to the set of the
query's lower-cased tokens (case-insensitive whole-token match), and the
highlighting depends on the query only through membership in that token
set, so repeats of a query token do not matter. -/
theorem claim_C9 :
    (∀ (q pre w post : List Char),
      (∀ c ∈ w, isWordChar c = true) → w ≠ [] →
      (∀ c ∈ pre.getLast?, isWordChar c = false) →
      (∀ c ∈ post.head?, isWordChar c = false) →
      highlight q (pre ++ w ++ post) =
        highlight q pre ++
          (if lowerStr w ∈ qtokens q then
            Char.ofNat 96 :: (w ++ [Char.ofNat 96])
          else w) ++ highlight q post) ∧
      ∀ (q q' s : List Char), (∀ t, t ∈ qtokens q ↔ t ∈ qtokens q') →
        highlight q s = highlight q' s := by
  constructor
  · intro q pre w post hw hne hpre hpost
    rw [highlight_decomp q pre w post hw hne hpre hpost, replTok]
  · intro q q' s h
    rw [highlight, highlight]
    exact subWAux_congr (replTok q) (replTok q') (replTok_congr q q' h) s []

theorem claim_C9_witness :
    highlight (("cat").toList)
        ((("a ").toList ++ ("Cat").toList ++ ([] : List Char))) =
      highlight (("cat").toList) (("a ").toList) ++
        (if lowerStr (("Cat").toList) ∈ qtokens (("cat").toList) then
          Char.ofNat 96 :: ((("Cat").toList) ++ [Char.ofNat 96])
        else ("Cat").toList) ++ highlight (("cat").toList) [] :=
  claim_C9.1 (("cat").toList) (("a ").toList) (("Cat").toList) []
    (by decide) (by decide) (by decide) (by decide)

/-- C10: for every uploaded file — the empty byte sequence included — the
parser returns a non-empty string (when every extraction path is empty the
`str(data)` fallback yields at least `b''`), so the stored text and its
3000-character preview are never empty and the missing-preview branch is
unreachable; the empty file concretely yields the three characters
`b''`. -/
theorem claim_C10 :
    (∀ (pdfLib docxLib : ExtractLib) (name : List Char) (data : List Byte),
      ∃ t, parseUploadedFileE pdfLib docxLib name data = Except.ok t ∧
        t ≠ [] ∧ t.take 3000 ≠ [] ∧
        parse_uploaded_file pdfLib docxLib name data = t) ∧
      parse_uploaded_file none none (("a.txt").toList) ([] : List Byte) =
        ['b', Char.ofNat 39, Char.ofNat 39] := by
  constructor
  · intro pdfLib docxLib name data
    obtain ⟨t, hok, hne⟩ := parseUploadedFileE_ok pdfLib docxLib name data
    exact ⟨t, hok, hne, take_ne_nil_of_ne_nil t 3000 (by omega) hne,
      by rw [parse_uploaded_file, hok]⟩
  · decide

end ChatbotApp
